import Mathlib

/-!
Shallow embedding of `src/pyTsetlinMachine/MultiClassConvolutionalTsetlinMachine.c`
(the multiclass orchestration layer of the convolutional Tsetlin machine).

Modelling conventions:
* C `rand()` is modelled by a stream `σ : ℕ → ℕ` together with a position
  counter that is threaded through every function exactly where the C code
  calls `rand()`; the value of the `k`-th call is `randVal σ k = σ k % 2^31`,
  matching `rand()`'s range `[0, RAND_MAX]` with `RAND_MAX = 2^31 - 1`.
* Machine integers are `ℕ`/`ℤ` with explicit modular arithmetic where
  overflow matters (`size_t` wrap-around is `% 2^64`).
* The single-class engine (`struct TsetlinMachine` beyond the fields this
  file touches, and `tm_update`/`tm_score`/`tm_initialize`) is external to
  the repository source; it is represented by an abstract core state `κ` and
  by function parameters (`tmUpd`, score functions) that the theorems
  quantify over.  Per the spec, `tm_update` mutates only the engine's
  trainable state (it reads, but never writes, the dropout masks and the
  configuration fields), so `tmUpd` acts on the `core` field only.
* The dropout probability comparison `((float)rand())/((float)RAND_MAX) < p`
  is floating point; it is modelled by an abstract predicate on the drawn
  `rand()` value (`dropC`, `dropL : ℕ → Bool`), which keeps the consumption
  of random draws exact while leaving the float comparison abstract.
-/

namespace PyTM

/-- The glibc `RAND_MAX`: `2^31 - 1`. -/
def RAND_MAX : ℕ := 2 ^ 31 - 1

/-- Modulus of `size_t` arithmetic (64-bit). -/
def sizeTMod : ℕ := 2 ^ 64

/-- Conversion of a C `int` value to `size_t` (two's-complement wrap). -/
def sizeT (z : ℤ) : ℕ := (z % (2 ^ 64 : ℤ)).toNat

/-- The value of the `k`-th call to `rand()`: the abstract stream `σ`
reduced to `rand()`'s range `[0, RAND_MAX]`. -/
def randVal (σ : ℕ → ℕ) (k : ℕ) : ℕ := σ k % 2 ^ 31

/-- One draw of the negative-class sampler of `mc_tm_update`:
`(unsigned int)number_of_classes * 1.0 * rand() / ((unsigned int)RAND_MAX + 1)`.
For `n < 2^22` the double-precision computation is exact, so the truncation
to `unsigned int` is the natural-number quotient. -/
def drawClass (n : ℕ) (σ : ℕ → ℕ) (k : ℕ) : ℕ :=
  n * randVal σ k / 2 ^ 31

/-- The negative-class rejection sampler of `mc_tm_update`: draw, and
while the draw equals `target_class`, redraw.  `fuel` bounds the number of
draws; `none` models the loop still running (it can only fail to terminate
when every drawn class equals `target`).  Returns the sampled class and the
`rand()` position after the loop. -/
def sampleNeg (n target : ℕ) (σ : ℕ → ℕ) : ℕ → ℕ → Option (ℕ × ℕ)
  | 0, _ => none
  | fuel + 1, k =>
    let c := drawClass n σ k
    if c = target then sampleNeg n target σ fuel (k + 1) else some (c, k + 1)

/-- The fields of `struct TsetlinMachine` that the multiclass layer touches
directly.  The engine's trainable state (automata, clause weights,
`clause_output`, ...) is abstracted into `core : κ`; the dropout masks and
the size fields are manipulated by `mc_tm_fit` itself and are explicit. -/
structure TM (κ : Type) where
  core : κ
  number_of_clauses : ℕ
  number_of_clause_chunks : ℕ
  number_of_ta_chunks : ℕ
  number_of_features : ℕ
  drop_clause : List ℕ
  drop_literal : List ℕ

/-- The `struct MultiClassTsetlinMachine`.  The engine array is modelled as a
total function `ℕ → TM κ` (C array indexing, in-bounds accesses assumed);
`clause_drop_p`/`literal_drop_p` are floats and enter the model through the
abstract comparison predicates passed to `mc_tm_fit`. -/
structure MCTM (κ : Type) where
  number_of_classes : ℕ
  tsetlin_machines : ℕ → TM κ
  number_of_patches : ℕ
  number_of_ta_chunks : ℕ
  number_of_state_bits : ℕ

/-- Overwrite an engine's core state: the effect on engine `i` of the
external `tm_update(mc_tm->tsetlin_machines[i], Xi, label)` call. -/
def withCore {κ : Type} (tm : TM κ) (c : κ) : TM κ :=
  { tm with core := c }

/-- Mutation of the engine behind `mc_tm->tsetlin_machines[i]`. -/
def setMachine {κ : Type} (mc : MCTM κ) (i : ℕ) (tm : TM κ) : MCTM κ :=
  { mc with tsetlin_machines := Function.update mc.tsetlin_machines i tm }

/-- The function `mc_tm_update`: train the target engine with label 1, sample a negative
class by rejection, train it with label 0.  `tmUpd tm xiOff label k`
returns the engine's new core state and the `rand()` position after the
external `tm_update` call (which consumes an unspecified number of draws).
`xiOff` is the word offset of the example `Xi` inside `X`.
`mc_tm_posUpdated` is the ensemble after the first, positive update
`tm_update(mc_tm->tsetlin_machines[target_class], Xi, 1)`. -/
def mc_tm_posUpdated {κ : Type} (tmUpd : TM κ → ℕ → Bool → ℕ → κ × ℕ)
    (mc : MCTM κ) (xiOff target k : ℕ) : MCTM κ :=
  setMachine mc target
    (withCore (mc.tsetlin_machines target) (tmUpd (mc.tsetlin_machines target) xiOff true k).1)

def mc_tm_update {κ : Type} (tmUpd : TM κ → ℕ → Bool → ℕ → κ × ℕ)
    (mc : MCTM κ) (xiOff target : ℕ) (σ : ℕ → ℕ) (k fuel : ℕ) :
    Option (MCTM κ × ℕ) :=
  match sampleNeg mc.number_of_classes target σ fuel
      (tmUpd (mc.tsetlin_machines target) xiOff true k).2 with
  | none => none
  | some (neg, k₂) =>
    some (setMachine (mc_tm_posUpdated tmUpd mc xiOff target k) neg
        (withCore ((mc_tm_posUpdated tmUpd mc xiOff target k).tsetlin_machines neg)
          (tmUpd ((mc_tm_posUpdated tmUpd mc xiOff target k).tsetlin_machines neg) xiOff false k₂).1),
      (tmUpd ((mc_tm_posUpdated tmUpd mc xiOff target k).tsetlin_machines neg) xiOff false k₂).2)

/-- Number of iterations of `shuffle`'s loop `for (i = 0; i < n - 1; i++)`:
`n - 1` in `size_t` arithmetic, so it wraps to `2^64 - 1` when `n = 0`. -/
def shuffleTrip (n : ℕ) : ℕ := (n + 2 ^ 64 - 1) % 2 ^ 64

/-- The swap partner chosen in iteration `i` of `shuffle`:
`j = i + rand() / (RAND_MAX / (n - i) + 1)`.  (`n - i` is `size_t`
subtraction; for the in-range executions modelled here `i < n`, so natural
subtraction agrees with it.) -/
def shuffleJ (σ : ℕ → ℕ) (n k i : ℕ) : ℕ :=
  i + randVal σ k / (RAND_MAX / (n - i) + 1)

/-- Loop body of `shuffle`, recursing on the remaining iteration count:
`t = array[j]; array[j] = array[i]; array[i] = t`.  Out-of-bounds C
accesses (undefined behaviour, reachable only through the `n = 0`
underflow) are modelled by `List.getD _ _ 0` / no-op `List.set`. -/
def shuffleAux (σ : ℕ → ℕ) (n : ℕ) : ℕ → ℕ → ℕ → List ℕ → List ℕ × ℕ
  | 0, _, k, a => (a, k)
  | fuel + 1, i, k, a =>
    let j := shuffleJ σ n k i
    let a' := (a.set j (a.getD i 0)).set i (a.getD j 0)
    shuffleAux σ n fuel (i + 1) (k + 1) a'

/-- The function `static void shuffle(int *array, size_t n)`. -/
def shuffle (σ : ℕ → ℕ) (k : ℕ) (a : List ℕ) (n : ℕ) : List ℕ × ℕ :=
  shuffleAux σ n (shuffleTrip n) 0 k a

/-- Zero out the first `count` words of a mask buffer:
`for (j = 0; j < count; j++) buf[j] = 0;`. -/
def clearWordsAux : ℕ → ℕ → List ℕ → List ℕ
  | 0, _, a => a
  | c + 1, j, a => clearWordsAux c (j + 1) (a.set j 0)

/-- Clearing loop for a dropout mask of `count` 32-bit chunks. -/
def clearWords (a : List ℕ) (count : ℕ) : List ℕ :=
  clearWordsAux count 0 a

/-- Set bit `idx` of a chunked bitset:
`buf[idx / 32] |= (1 << (idx % 32));`. -/
def setBit32 (a : List ℕ) (idx : ℕ) : List ℕ :=
  a.set (idx / 32) (a.getD (idx / 32) 0 ||| 1 <<< (idx % 32))

/-- Dropout regeneration loop: for each of `count` bits draw one `rand()`
and set the bit when the (abstracted) float comparison `p` holds. -/
def dropBitsLoop (p : ℕ → Bool) (σ : ℕ → ℕ) : ℕ → ℕ → ℕ → List ℕ → List ℕ × ℕ
  | 0, _, k, a => (a, k)
  | c + 1, j, k, a =>
    let a' := if p (randVal σ k) then setBit32 a j else a
    dropBitsLoop p σ c (j + 1) (k + 1) a'

/-- The regenerated `drop_clause` mask (cleared, then redrawn bit by bit)
together with the `rand()` position after the clause loop. -/
def regenClause {κ : Type} (dropC : ℕ → Bool) (σ : ℕ → ℕ) (tm : TM κ) (k : ℕ) :
    List ℕ × ℕ :=
  dropBitsLoop dropC σ tm.number_of_clauses 0 k
    (clearWords tm.drop_clause tm.number_of_clause_chunks)

/-- The regenerated `drop_literal` mask, drawn after the clause mask. -/
def regenLiteral {κ : Type} (dropL : ℕ → Bool) (σ : ℕ → ℕ) (tm : TM κ) (k : ℕ) :
    List ℕ × ℕ :=
  dropBitsLoop dropL σ tm.number_of_features 0 k
    (clearWords tm.drop_literal tm.number_of_ta_chunks)

/-- The per-class mask block at the top of each `mc_tm_fit` epoch: clear
`drop_clause`, redraw it bit by bit, clear `drop_literal`, redraw it. -/
def regenMasks {κ : Type} (dropC dropL : ℕ → Bool) (σ : ℕ → ℕ)
    (tm : TM κ) (k : ℕ) : TM κ × ℕ :=
  ({ tm with
      drop_clause := (regenClause dropC σ tm k).1,
      drop_literal := (regenLiteral dropL σ tm (regenClause dropC σ tm k).2).1 },
    (regenLiteral dropL σ tm (regenClause dropC σ tm k).2).2)

/-- The per-epoch loop over classes regenerating both dropout masks. -/
def dropMasksAll {κ : Type} (dropC dropL : ℕ → Bool) (σ : ℕ → ℕ) :
    ℕ → ℕ → MCTM κ → ℕ → MCTM κ × ℕ
  | 0, _, mc, k => (mc, k)
  | c + 1, i, mc, k =>
    dropMasksAll dropC dropL σ c (i + 1)
      (setMachine mc i (regenMasks dropC dropL σ (mc.tsetlin_machines i) k).1)
      (regenMasks dropC dropL σ (mc.tsetlin_machines i) k).2

/-- Clear both dropout masks of one engine (the end-of-epoch reset). -/
def clearMasks {κ : Type} (tm : TM κ) : TM κ :=
  { tm with
    drop_clause := clearWords tm.drop_clause tm.number_of_clause_chunks,
    drop_literal := clearWords tm.drop_literal tm.number_of_ta_chunks }

/-- The end-of-epoch loop turning dropout off for every class. -/
def finalClearAll {κ : Type} : ℕ → ℕ → MCTM κ → MCTM κ
  | 0, _, mc => mc
  | c + 1, i, mc => finalClearAll c (i + 1) (setMachine mc i (clearMasks (mc.tsetlin_machines i)))

/-- The example loop of one epoch:
`mc_tm_update(mc_tm, &X[index[i]*patches*ta_chunks], y[index[i]])` for
`i` in `[0, number_of_examples)` in the shuffled order `idx`. -/
def updatesLoop {κ : Type} (tmUpd : TM κ → ℕ → Bool → ℕ → κ × ℕ) (σ : ℕ → ℕ)
    (y : ℕ → ℕ) (idx : List ℕ) (sampleFuel : ℕ) :
    ℕ → ℕ → MCTM κ → ℕ → Option (MCTM κ × ℕ)
  | 0, _, mc, k => some (mc, k)
  | c + 1, i, mc, k =>
    match mc_tm_update tmUpd mc
        (idx.getD i 0 * mc.number_of_patches * mc.number_of_ta_chunks)
        (y (idx.getD i 0)) σ k sampleFuel with
    | none => none
    | some (mc', k') => updatesLoop tmUpd σ y idx sampleFuel c (i + 1) mc' k'

/-- The epoch loop of `mc_tm_fit`: shuffle the index array, regenerate all
dropout masks, process every example, clear all masks. -/
def fitEpochs {κ : Type} (tmUpd : TM κ → ℕ → Bool → ℕ → κ × ℕ)
    (dropC dropL : ℕ → Bool) (σ : ℕ → ℕ) (y : ℕ → ℕ)
    (number_of_examples : ℤ) (sampleFuel : ℕ) :
    ℕ → List ℕ → MCTM κ → ℕ → Option (List ℕ × MCTM κ × ℕ)
  | 0, idx, mc, k => some (idx, mc, k)
  | e + 1, idx, mc, k =>
    match updatesLoop tmUpd σ y (shuffle σ k idx (sizeT number_of_examples)).1 sampleFuel
        number_of_examples.toNat 0
        (dropMasksAll dropC dropL σ mc.number_of_classes 0 mc
          (shuffle σ k idx (sizeT number_of_examples)).2).1
        (dropMasksAll dropC dropL σ mc.number_of_classes 0 mc
          (shuffle σ k idx (sizeT number_of_examples)).2).2 with
    | none => none
    | some (mc₂, k₃) =>
      fitEpochs tmUpd dropC dropL σ y number_of_examples sampleFuel e
        (shuffle σ k idx (sizeT number_of_examples)).1
        (finalClearAll mc₂.number_of_classes 0 mc₂) k₃

/-- The function `mc_tm_fit`: allocate and initialise the index array `0, 1, ...,
number_of_examples - 1`, then run the epochs.  Returns the final ensemble
state and `rand()` position (`none` models a non-terminating
negative-class sampling loop). -/
def mc_tm_fit {κ : Type} (tmUpd : TM κ → ℕ → Bool → ℕ → κ × ℕ)
    (dropC dropL : ℕ → Bool) (mc : MCTM κ) (y : ℕ → ℕ)
    (number_of_examples epochs : ℤ) (σ : ℕ → ℕ) (k sampleFuel : ℕ) :
    Option (MCTM κ × ℕ) :=
  (fitEpochs tmUpd dropC dropL σ y number_of_examples sampleFuel
      epochs.toNat (List.range number_of_examples.toNat) mc k).map
    (fun s => (s.2.1, s.2.2))

/-- The argmax loop of `mc_tm_predict`: starting from
`max_class = maxC`, `max_class_sum = maxS`, scan classes `i, i+1, ...`
(`fuel` of them) and replace the incumbent only on a strictly larger
score (`if (max_class_sum < class_sum)`). -/
def predictLoop (score : ℕ → ℤ) (maxC : ℕ) (maxS : ℤ) (i : ℕ) : ℕ → ℕ × ℤ
  | 0 => (maxC, maxS)
  | fuel + 1 =>
    let s := score i
    if maxS < s then predictLoop score i s (i + 1) fuel
    else predictLoop score maxC maxS (i + 1) fuel

/-- Class prediction for one example: seed the maximum with class 0's
score, then scan classes `1 .. number_of_classes - 1`. -/
def mc_tm_predictOne (number_of_classes : ℕ) (score : ℕ → ℤ) : ℕ :=
  (predictLoop score 0 (score 0) 1 (number_of_classes - 1)).1

/-- The function `mc_tm_predict`: one class id per example, in input order.
`mcScore i pos` is the value of the external
`tm_score(mc_tm->tsetlin_machines[i], &X[pos])`, a pure function of the
engine's (fixed, within this call) state and the example; `step_size =
number_of_patches * number_of_ta_chunks`. -/
def mc_tm_predict (mcScore : ℕ → ℕ → ℤ) (number_of_classes step_size : ℕ)
    (number_of_examples : ℕ) : List ℕ :=
  (List.range number_of_examples).map fun l =>
    mc_tm_predictOne number_of_classes fun i => mcScore i (l * step_size)

/-- Clause-output bit test of `mc_tm_transform`:
`(clause_output[chunk] & (1 << pos)) > 0`. -/
def clauseOutputBit (w pos : ℕ) : Bool := decide (0 < w &&& 1 <<< pos)

/-- The emitted word of `mc_tm_transform` for one clause:
`if (clause_output && !invert) 1 else if (!clause_output && invert) 1
else 0`, with the C `int` `invert` tested for truthiness. -/
def transformBit (clause_output : Bool) (invert : ℤ) : ℕ :=
  if clause_output = true ∧ invert = 0 then 1
  else if clause_output = false ∧ invert ≠ 0 then 1
  else 0

/-- The function `mc_tm_transform`: for each example (outer), each class (middle, index
order) and each clause (inner, index order) emit one word into
`X_transformed` at the running position `transformed_feature++`.
`clauseWord i pos chunk` is chunk `chunk` of
`mc_tm->tsetlin_machines[i]->clause_output` right after the
`tm_score(mc_tm->tsetlin_machines[i], &X[pos])` call — a pure function of
the engine's (fixed, within this call) state and the example. -/
def mc_tm_transform (clauseWord : ℕ → ℕ → ℕ → ℕ)
    (number_of_classes number_of_clauses step_size : ℕ) (invert : ℤ)
    (number_of_examples : ℕ) : List ℕ :=
  (List.range number_of_examples).flatMap fun l =>
    (List.range number_of_classes).flatMap fun i =>
      (List.range number_of_clauses).map fun j =>
        transformBit (clauseOutputBit (clauseWord i (l * step_size) (j / 32)) (j % 32)) invert

/-- Modelled from the spec: the per-class state reached by
`tm_get_ta_state`/`tm_get_clause_weights` (and written back by their `set`
counterparts) — external engine code not under `src/`.  Per the spec, the
saved state is the engine's automaton state array and clause-weight
array. -/
structure TMSaved where
  ta_state : List ℕ
  clause_weights : List ℕ

/-- Modelled from the spec: an ensemble as seen by the state accessor —
`number_of_classes` engines whose score-relevant state is their automaton
states and clause weights (the engines share one configuration, which the
abstract score function captures). -/
structure MCSaved where
  number_of_classes : ℕ
  machines : ℕ → TMSaved

/-- The function `mc_tm_get_state(mc_tm, class, clause_weights, ta_state)`: bulk copy
out of the engine (returned as the pair `(clause_weights, ta_state)`). -/
def mc_tm_get_state (mc : MCSaved) (cls : ℕ) : List ℕ × List ℕ :=
  ((mc.machines cls).clause_weights, (mc.machines cls).ta_state)

/-- The function `mc_tm_set_state(mc_tm, class, clause_weights, ta_state)`: bulk copy
into the engine. -/
def mc_tm_set_state (mc : MCSaved) (cls : ℕ) (clause_weights ta_state : List ℕ) : MCSaved :=
  { mc with machines := Function.update mc.machines cls ⟨ta_state, clause_weights⟩ }

/-- The predictor `mc_tm_predict` over an `MCSaved` ensemble; `score e pos` models the
external `tm_score`, a function of the engine's saved state and the
example (modelled from the spec: `tm_score` reads the automaton state and
clause weights restored by `tm_set_ta_state`/`tm_set_clause_weights`). -/
def mc_tm_predictSaved (score : TMSaved → ℕ → ℤ) (mc : MCSaved)
    (step_size number_of_examples : ℕ) : List ℕ :=
  (List.range number_of_examples).map fun l =>
    mc_tm_predictOne mc.number_of_classes fun i => score (mc.machines i) (l * step_size)

/-- The result of `get_state` of every class of `src`, written into the matching class
slot of `dst` with `set_state` (classes `0 .. count - 1`). -/
def restoreAll (dst src : MCSaved) : ℕ → MCSaved
  | 0 => dst
  | i + 1 =>
    mc_tm_set_state (restoreAll dst src i) i
      (mc_tm_get_state src i).1 (mc_tm_get_state src i).2

/-- A concrete score function for the state-accessor model: the engine's
first automaton word (used in the C8 counterexample and witness). -/
def exScore : TMSaved → ℕ → ℤ := fun e _ => (e.ta_state.headD 0 : ℤ)

/-- A concrete trained two-class ensemble: engine 1's state scores 5,
engine 0's scores 0. -/
def exSavedA : MCSaved := ⟨2, fun i => if i = 0 then ⟨[0], [0]⟩ else ⟨[5], [0]⟩⟩

/-- A concrete fresh, identically configured and initialized two-class
ensemble: every engine in the deterministic post-`initialize` state. -/
def exSavedFresh : MCSaved := ⟨2, fun _ => ⟨[0], [0]⟩⟩

/-- Result of `CreateMultiClassTsetlinMachine`.  `allocError` is the clean
failure the spec calls for; the embedded code never produces it:
`nullDeref` marks the store through a `NULL` `malloc` result that the
unchecked code performs instead. -/
inductive CreateResult (ε : Type) where
  | ok (engines : List ε) (number_of_classes : ℤ)
  | nullDeref
  | allocError
  deriving DecidableEq

/-- The constructor `CreateMultiClassTsetlinMachine`: allocate the container, then the
engine array, then one engine per class via the external
`CreateTsetlinMachine` (modelled by `createEngine`, applied to the same
configuration `cfg` for every class).  Neither `malloc` result is checked:
a failed container allocation is followed by the field store
`mc_tm->number_of_classes = ...`, and a failed engine-array allocation by
the store `mc_tm->tsetlin_machines[i] = ...` whenever the loop runs. -/
def CreateMultiClassTsetlinMachine {γ ε : Type} (structAllocOk arrayAllocOk : Bool)
    (createEngine : γ → ε) (number_of_classes : ℤ) (cfg : γ) : CreateResult ε :=
  if structAllocOk = false then .nullDeref
  else if arrayAllocOk = false ∧ 0 < number_of_classes then .nullDeref
  else .ok ((List.range number_of_classes.toNat).map fun _ => createEngine cfg) number_of_classes

/-- The engine fields that the external `tm_update` never writes (per the
spec, the trainer alone manages the dropout masks; the size fields are
fixed at construction): `tm'` has the same configuration counts and the
same mask buffers as `tm`. -/
def sameShape {κ : Type} (tm tm' : TM κ) : Prop :=
  tm'.number_of_clauses = tm.number_of_clauses ∧
  tm'.number_of_clause_chunks = tm.number_of_clause_chunks ∧
  tm'.number_of_ta_chunks = tm.number_of_ta_chunks ∧
  tm'.number_of_features = tm.number_of_features ∧
  tm'.drop_clause = tm.drop_clause ∧
  tm'.drop_literal = tm.drop_literal

/-- Buffer-size invariant of the C engines: each dropout mask holds
exactly as many words as the engine's corresponding chunk count (this is
how `CreateTsetlinMachine` allocates them). -/
def MaskLenInv {κ : Type} (mc : MCTM κ) : Prop :=
  ∀ i, ((mc.tsetlin_machines i).drop_clause).length =
      (mc.tsetlin_machines i).number_of_clause_chunks ∧
    ((mc.tsetlin_machines i).drop_literal).length =
      (mc.tsetlin_machines i).number_of_ta_chunks

/-- Both dropout masks of an engine are entirely zero. -/
def MasksZero {κ : Type} (tm : TM κ) : Prop :=
  (∀ p, tm.drop_clause.getD p 0 = 0) ∧ ∀ p, tm.drop_literal.getD p 0 = 0

/-! ### Concrete instances used by the witnesses -/

/-- A concrete external-engine update function (used in witnesses): adds
10 to the core on a positive update, 1 on a negative one, and consumes one
random draw. -/
def exUpd : TM ℕ → ℕ → Bool → ℕ → ℕ × ℕ :=
  fun tm _ lab k => (tm.core + (if lab then 10 else 1), k + 1)

/-- A concrete engine with one clause, one feature, one chunk each, and
initially nonzero dropout masks. -/
def exTM : TM ℕ := ⟨0, 1, 1, 1, 1, [7], [3]⟩

/-- A concrete two-class ensemble of copies of `exTM`. -/
def exMC : MCTM ℕ := ⟨2, fun _ => exTM, 1, 1, 1⟩

/-- A concrete random stream: every `rand()` call returns `2^30`, so a
two-class negative draw yields class 1. -/
def exSigma : ℕ → ℕ := fun _ => 2 ^ 30

/-! ### Helper lemmas -/

theorem length_flatMap_const {α : Type} (m : ℕ) (f : ℕ → List α)
    (h : ∀ x, (f x).length = m) (a : ℕ) :
    ((List.range a).flatMap f).length = a * m := by
  induction a with
  | zero => simp
  | succ a ih =>
    rw [List.range_succ, List.flatMap_append]
    simp [ih, h, Nat.succ_mul]

theorem getD_flatMap_const {α : Type} (m : ℕ) (f : ℕ → List α) (d : α)
    (h : ∀ x, (f x).length = m) (p : ℕ) (hp : p < m) :
    ∀ a l, l < a → ((List.range a).flatMap f).getD (l * m + p) d = (f l).getD p d := by
  intro a
  induction a with
  | zero => omega
  | succ a ih =>
    intro l hl
    rw [List.range_succ, List.flatMap_append]
    rcases Nat.lt_succ_iff_lt_or_eq.mp hl with h1 | rfl
    · rw [List.getD_append]
      · exact ih l h1
      · rw [length_flatMap_const m f h]
        calc l * m + p < l * m + m := by omega
          _ ≤ a * m := by
            rw [← Nat.succ_mul]
            exact Nat.mul_le_mul_right m h1
    · rw [List.getD_append_right]
      · rw [length_flatMap_const m f h]
        simp [Nat.add_sub_cancel_left]
      · rw [length_flatMap_const m f h]
        omega

theorem getD_map_range {α : Type} (K : ℕ) (h : ℕ → α) (d : α) (j : ℕ) (hj : j < K) :
    ((List.range K).map h).getD j d = h j := by
  have hj' : j < ((List.range K).map h).length := by simpa using hj
  rw [List.getD_eq_getElem _ _ hj']
  simp

theorem transformBit_invert_ne_zero (b : Bool) (v : ℤ) (hv : v ≠ 0) :
    transformBit b v = transformBit b 1 := by
  unfold transformBit
  cases b <;> split_ifs <;> simp_all

theorem transformBit_eq_ite (b : Bool) (v : ℤ) :
    transformBit b v = if b ≠ decide (v ≠ 0) then 1 else 0 := by
  unfold transformBit
  by_cases hv : v = 0 <;> cases b <;> split_ifs <;> simp_all

theorem transformBit_le_one (b : Bool) (v : ℤ) : transformBit b v ≤ 1 := by
  unfold transformBit
  split
  · exact le_refl 1
  · split
    · exact le_refl 1
    · exact Nat.zero_le 1

theorem transformBit_compl (b : Bool) : transformBit b 1 = 1 - transformBit b 0 := by
  cases b <;> simp [transformBit]

/-! ### C10 -/

/-- C10: for every nonzero `invert`, `mc_tm_transform` produces exactly the
same output as with `invert = 1`: the C code tests `invert` only for
truthiness (`!invert` / `invert`), so it is interpreted as a boolean. -/
theorem C10_transform_invert_boolean (clauseWord : ℕ → ℕ → ℕ → ℕ)
    (C K step E : ℕ) (invert : ℤ) (h : invert ≠ 0) :
    mc_tm_transform clauseWord C K step invert E =
      mc_tm_transform clauseWord C K step 1 E := by
  have hleaf : ∀ b, transformBit b invert = transformBit b 1 := fun b =>
    transformBit_invert_ne_zero b invert h
  simp only [mc_tm_transform, hleaf]

/-- Witness for C10 at `invert = -3` on a concrete clause-output table. -/
theorem C10_witness :
    mc_tm_transform (fun i pos chunk => i + pos + chunk) 1 2 1 (-3) 1 =
      mc_tm_transform (fun i pos chunk => i + pos + chunk) 1 2 1 1 1 :=
  C10_transform_invert_boolean (fun i pos chunk => i + pos + chunk) 1 2 1 1 (-3) (by decide)

/-! ### C6 -/

/-- C6: on the same model state (the same clause-output table),
`mc_tm_transform` with `invert = 0` and with `invert = 1` produce outputs
of the same length that are bitwise complements: at every position the two
emitted words sum to 1 (one is 1 exactly where the other is 0). -/
theorem C6_transform_complement (clauseWord : ℕ → ℕ → ℕ → ℕ) (C K step E : ℕ) :
    (mc_tm_transform clauseWord C K step 0 E).length =
      (mc_tm_transform clauseWord C K step 1 E).length ∧
    ∀ p < (mc_tm_transform clauseWord C K step 0 E).length,
      (mc_tm_transform clauseWord C K step 0 E).getD p 0 +
        (mc_tm_transform clauseWord C K step 1 E).getD p 0 = 1 := by
  have hmap : mc_tm_transform clauseWord C K step 1 E =
      (mc_tm_transform clauseWord C K step 0 E).map (fun b => 1 - b) := by
    simp only [mc_tm_transform, List.map_flatMap, List.map_map]
    simp only [Function.comp_def, transformBit_compl]
  constructor
  · rw [hmap, List.length_map]
  · intro p hp
    have hp1 : p < (mc_tm_transform clauseWord C K step 1 E).length := by
      rw [hmap, List.length_map]; exact hp
    rw [List.getD_eq_getElem _ _ hp, List.getD_eq_getElem _ _ hp1]
    have hboundAll : ∀ x ∈ mc_tm_transform clauseWord C K step 0 E, x ≤ 1 := by
      intro x hxmem
      simp only [mc_tm_transform, List.mem_flatMap, List.mem_map] at hxmem
      obtain ⟨l, _, i, _, j, _, hx⟩ := hxmem
      exact hx ▸ transformBit_le_one _ _
    have hbound : (mc_tm_transform clauseWord C K step 0 E)[p] ≤ 1 :=
      hboundAll _ (List.getElem_mem hp)
    have : (mc_tm_transform clauseWord C K step 1 E)[p] =
        1 - (mc_tm_transform clauseWord C K step 0 E)[p] := by
      simp only [hmap]
      rw [List.getElem_map]
    rw [this]
    omega

/-- Witness for C6's positional statement at a concrete clause-output
table and position `p = 0`. -/
theorem C6_witness :
    (mc_tm_transform (fun i pos chunk => i + pos + chunk) 1 2 1 0 1).getD 0 0 +
      (mc_tm_transform (fun i pos chunk => i + pos + chunk) 1 2 1 1 1).getD 0 0 = 1 :=
  (C6_transform_complement (fun i pos chunk => i + pos + chunk) 1 2 1 1).2 0 (by decide)

/-! ### C7 -/

/-- C7: `mc_tm_transform` writes example-major, class-major, clause-minor:
the output has length `number_of_examples * (number_of_classes *
number_of_clauses)` and the entry at `(l * number_of_classes + i) *
number_of_clauses + j` is 1 exactly when the clause-output bit of clause
`j` of class `i`, refreshed by scoring that engine on example `l`, differs
(as a boolean) from `invert`, else 0. -/
theorem C7_transform_layout (clauseWord : ℕ → ℕ → ℕ → ℕ)
    (C K step E : ℕ) (invert : ℤ) :
    (mc_tm_transform clauseWord C K step invert E).length = E * (C * K) ∧
    ∀ l i j, l < E → i < C → j < K →
      (mc_tm_transform clauseWord C K step invert E).getD ((l * C + i) * K + j) 0 =
        if clauseOutputBit (clauseWord i (l * step) (j / 32)) (j % 32) ≠ decide (invert ≠ 0)
        then 1 else 0 := by
  have hinner : ∀ l i : ℕ,
      ((List.range K).map fun j =>
        transformBit (clauseOutputBit (clauseWord i (l * step) (j / 32)) (j % 32)) invert).length = K := by
    intro l i
    simp
  have hmid : ∀ l : ℕ,
      ((List.range C).flatMap fun i =>
        (List.range K).map fun j =>
          transformBit (clauseOutputBit (clauseWord i (l * step) (j / 32)) (j % 32)) invert).length
        = C * K := by
    intro l
    exact length_flatMap_const K _ (hinner l) C
  constructor
  · exact length_flatMap_const (C * K) _ hmid E
  · intro l i j hl hi hj
    have harith : (l * C + i) * K + j = l * (C * K) + (i * K + j) := by ring
    have hik : i * K + j < C * K := by
      calc i * K + j < i * K + K := by omega
        _ ≤ C * K := by
          rw [← Nat.succ_mul]
          exact Nat.mul_le_mul_right K hi
    rw [mc_tm_transform, harith,
      getD_flatMap_const (C * K) _ 0 hmid (i * K + j) hik E l hl,
      getD_flatMap_const K _ 0 (hinner l) j hj C i hi,
      getD_map_range K _ 0 j hj]
    exact transformBit_eq_ite _ invert

/-- Witness for C7 at a concrete clause-output table, `l = 0`, `i = 1`,
`j = 2`. -/
theorem C7_witness :
    (mc_tm_transform (fun i pos chunk => i + pos + chunk) 2 3 4 0 1).getD ((0 * 2 + 1) * 3 + 2) 0 =
      if clauseOutputBit ((fun i pos chunk => i + pos + chunk) 1 (0 * 4) (2 / 32)) (2 % 32) ≠
          decide ((0 : ℤ) ≠ 0) then 1 else 0 :=
  (C7_transform_layout (fun i pos chunk => i + pos + chunk) 2 3 4 1 0).2 0 1 2
    (by decide) (by decide) (by decide)

/-! ### C9 -/

/-- C9 (amended): when the allocations succeed,
`CreateMultiClassTsetlinMachine` builds exactly `number_of_classes`
engines, each independently constructed by applying the external engine
constructor to the identical configuration arguments. -/
theorem C9_create_engines {γ ε : Type} (createEngine : γ → ε) (n : ℤ) (cfg : γ) :
    ∀ engines m, CreateMultiClassTsetlinMachine true true createEngine n cfg =
        CreateResult.ok engines m →
      m = n ∧ engines.length = n.toNat ∧ ∀ e ∈ engines, e = createEngine cfg := by
  intro engines m h
  simp only [CreateMultiClassTsetlinMachine, Bool.true_eq_false, if_false,
    false_and, CreateResult.ok.injEq] at h
  obtain ⟨he, hm⟩ := h
  subst he
  subst hm
  refine ⟨rfl, by simp, ?_⟩
  intro e he
  simp only [List.mem_map] at he
  obtain ⟨x, _, hx⟩ := he
  exact hx.symm

/-- Witness for C9 at two classes of a trivial engine type. -/
theorem C9_witness :
    (2 : ℤ) = 2 ∧ ([0, 0] : List ℕ).length = (2 : ℤ).toNat ∧
      ∀ e ∈ ([0, 0] : List ℕ), e = (fun _ : Unit => (0 : ℕ)) () :=
  C9_create_engines (fun _ : Unit => (0 : ℕ)) 2 () [0, 0] 2 rfl

/-- C9 counterexample: when the container `malloc` fails, the code does
not return an allocation error — with no `NULL` check it proceeds to the
field store `mc_tm->number_of_classes = number_of_classes`, dereferencing
the null pointer. -/
theorem C9_counterexample :
    CreateMultiClassTsetlinMachine false true (fun _ : Unit => (0 : ℕ)) 2 () =
        CreateResult.nullDeref ∧
      CreateMultiClassTsetlinMachine false true (fun _ : Unit => (0 : ℕ)) 2 () ≠
        CreateResult.allocError := by
  constructor
  · rfl
  · intro h
    simp only [CreateMultiClassTsetlinMachine] at h
    exact absurd h (by simp)

/-! ### C3 -/

theorem predictLoop_spec (score : ℕ → ℤ) :
    ∀ fuel i maxC maxS, maxS = score maxC → maxC < i →
      (∀ t < i, score t ≤ maxS) → (∀ t < maxC, score t < maxS) →
      (predictLoop score maxC maxS i fuel).2 = score (predictLoop score maxC maxS i fuel).1 ∧
      (predictLoop score maxC maxS i fuel).1 < i + fuel ∧
      (∀ t < i + fuel, score t ≤ (predictLoop score maxC maxS i fuel).2) ∧
      (∀ t < (predictLoop score maxC maxS i fuel).1,
        score t < (predictLoop score maxC maxS i fuel).2) := by
  intro fuel
  induction fuel with
  | zero =>
    intro i maxC maxS h1 h2 h3 h4
    exact ⟨h1, by simpa using h2, by simpa using h3, h4⟩
  | succ fuel ih =>
    intro i maxC maxS h1 h2 h3 h4
    have harith : i + (fuel + 1) = (i + 1) + fuel := by omega
    simp only [predictLoop]
    by_cases hlt : maxS < score i
    · rw [if_pos hlt]
      have h3' : ∀ t < i + 1, score t ≤ score i := by
        intro t ht
        rcases Nat.lt_succ_iff_lt_or_eq.mp ht with ht' | rfl
        · exact le_of_lt (lt_of_le_of_lt (h3 t ht') (h1 ▸ hlt))
        · exact le_refl _
      have h4' : ∀ t < i, score t < score i := fun t ht =>
        lt_of_le_of_lt (h3 t ht) (h1 ▸ hlt)
      have := ih (i + 1) i (score i) rfl (by omega) h3' h4'
      rw [harith]
      exact this
    · rw [if_neg hlt]
      have h3' : ∀ t < i + 1, score t ≤ maxS := by
        intro t ht
        rcases Nat.lt_succ_iff_lt_or_eq.mp ht with ht' | rfl
        · exact h3 t ht'
        · exact le_of_not_lt hlt
      have := ih (i + 1) maxC maxS h1 (by omega) h3' h4
      rw [harith]
      exact this

/-- C3: `mc_tm_predict` emits one class id per example in input order
(output length = `number_of_examples`, entry `l` for example `l`); each
entry is a class index below `number_of_classes` whose score is maximal
among classes `0 .. number_of_classes - 1`, and — because the incumbent is
replaced only on `max_class_sum < class_sum` — it is the lowest class
index attaining the maximal score. -/
theorem C3_predict_argmax (mcScore : ℕ → ℕ → ℤ) (n step E : ℕ) (hn : 1 ≤ n) :
    (mc_tm_predict mcScore n step E).length = E ∧
    ∀ l < E,
      (mc_tm_predict mcScore n step E).getD l 0 < n ∧
      (∀ i < n, mcScore i (l * step) ≤
        mcScore ((mc_tm_predict mcScore n step E).getD l 0) (l * step)) ∧
      (∀ i < n, mcScore i (l * step) =
          mcScore ((mc_tm_predict mcScore n step E).getD l 0) (l * step) →
        (mc_tm_predict mcScore n step E).getD l 0 ≤ i) := by
  constructor
  · simp [mc_tm_predict]
  · intro l hl
    have hentry : (mc_tm_predict mcScore n step E).getD l 0 =
        mc_tm_predictOne n fun i => mcScore i (l * step) := by
      unfold mc_tm_predict
      exact getD_map_range E _ 0 l hl
    set score : ℕ → ℤ := fun i => mcScore i (l * step) with hscore
    have hspec := predictLoop_spec score (n - 1) 1 0 (score 0) rfl (by omega)
      (by intro t ht; interval_cases t; exact le_refl _) (by omega)
    have hfin : 1 + (n - 1) = n := by omega
    rw [hfin] at hspec
    obtain ⟨hs1, hs2, hs3, hs4⟩ := hspec
    have hone : mc_tm_predictOne n score = (predictLoop score 0 (score 0) 1 (n - 1)).1 := rfl
    rw [hentry, hone]
    refine ⟨hs2, ?_, ?_⟩
    · intro i hi
      have := hs3 i hi
      rw [hs1] at this
      exact this
    · intro i hi heq
      by_contra hcon
      push_neg at hcon
      have := hs4 i hcon
      rw [hs1] at this
      exact absurd heq (ne_of_lt this)

/-- Witness for C3: two classes with tied scores — the returned class id
is 0, the lower index. -/
theorem C3_witness :
    (mc_tm_predict (fun _ _ => (5 : ℤ)) 2 1 1).length = 1 ∧
    ∀ l < 1,
      (mc_tm_predict (fun _ _ => (5 : ℤ)) 2 1 1).getD l 0 < 2 ∧
      (∀ i < 2, (fun _ _ => (5 : ℤ)) i (l * 1) ≤
        (fun _ _ => (5 : ℤ)) ((mc_tm_predict (fun _ _ => (5 : ℤ)) 2 1 1).getD l 0) (l * 1)) ∧
      (∀ i < 2, (fun _ _ => (5 : ℤ)) i (l * 1) =
          (fun _ _ => (5 : ℤ)) ((mc_tm_predict (fun _ _ => (5 : ℤ)) 2 1 1).getD l 0) (l * 1) →
        (mc_tm_predict (fun _ _ => (5 : ℤ)) 2 1 1).getD l 0 ≤ i) :=
  C3_predict_argmax (fun _ _ => (5 : ℤ)) 2 1 1 (by decide)

/-! ### C2 -/

theorem setMachine_at {κ : Type} (mc : MCTM κ) (i : ℕ) (tm : TM κ) :
    (setMachine mc i tm).tsetlin_machines i = tm := by
  simp [setMachine]

theorem setMachine_ne {κ : Type} (mc : MCTM κ) (i j : ℕ) (tm : TM κ) (h : j ≠ i) :
    (setMachine mc i tm).tsetlin_machines j = mc.tsetlin_machines j := by
  simp [setMachine, Function.update_noteq h]

theorem randVal_lt (σ : ℕ → ℕ) (k : ℕ) : randVal σ k < 2 ^ 31 :=
  Nat.mod_lt _ (by norm_num)

theorem drawClass_lt (n : ℕ) (hn : 1 ≤ n) (σ : ℕ → ℕ) (k : ℕ) :
    drawClass n σ k < n := by
  unfold drawClass
  rw [Nat.div_lt_iff_lt_mul (by norm_num : (0 : ℕ) < 2 ^ 31)]
  exact Nat.mul_lt_mul_of_le_of_lt (le_refl n) (randVal_lt σ k) (by omega)

theorem sampleNeg_spec (n target : ℕ) (σ : ℕ → ℕ) :
    ∀ fuel k neg k₂, sampleNeg n target σ fuel k = some (neg, k₂) →
      neg ≠ target ∧ (1 ≤ n → neg < n) := by
  intro fuel
  induction fuel with
  | zero =>
    intro k neg k₂ h
    simp [sampleNeg] at h
  | succ fuel ih =>
    intro k neg k₂ h
    simp only [sampleNeg] at h
    by_cases hc : drawClass n σ k = target
    · rw [if_pos hc] at h
      exact ih (k + 1) neg k₂ h
    · rw [if_neg hc] at h
      obtain ⟨h1, h2⟩ := Prod.mk.inj (Option.some.inj h)
      constructor
      · rw [← h1]
        exact hc
      · intro hn
        rw [← h1]
        exact drawClass_lt n hn σ k


/-- C2: when `mc_tm_update` returns (on `num_classes >= 2`), the target
engine has been trained with label 1 (on the pre-call state, at the
initial `rand()` position), the rejection sampler has produced exactly one
negative class that is in `[0, num_classes)` and never equals
`target_class`, that single engine has been trained with label 0, and the
state of every other engine is unchanged. -/
theorem C2_update_pairwise {κ : Type} (tmUpd : TM κ → ℕ → Bool → ℕ → κ × ℕ)
    (mc : MCTM κ) (xiOff target : ℕ) (σ : ℕ → ℕ) (k fuel : ℕ)
    (hcls : 2 ≤ mc.number_of_classes) (ht : target < mc.number_of_classes)
    (hsome : (mc_tm_update tmUpd mc xiOff target σ k fuel).isSome = true) :
    ∃ neg k₂,
      sampleNeg mc.number_of_classes target σ fuel
          (tmUpd (mc.tsetlin_machines target) xiOff true k).2 = some (neg, k₂) ∧
      neg < mc.number_of_classes ∧ neg ≠ target ∧
      ∀ out ∈ mc_tm_update tmUpd mc xiOff target σ k fuel,
        (out.1.tsetlin_machines target).core =
          (tmUpd (mc.tsetlin_machines target) xiOff true k).1 ∧
        (out.1.tsetlin_machines neg).core =
          (tmUpd (mc.tsetlin_machines neg) xiOff false k₂).1 ∧
        ∀ j, j ≠ target → j ≠ neg → out.1.tsetlin_machines j = mc.tsetlin_machines j := by
  cases hsn : sampleNeg mc.number_of_classes target σ fuel
      (tmUpd (mc.tsetlin_machines target) xiOff true k).2 with
  | none =>
    exfalso
    unfold mc_tm_update at hsome
    rw [hsn] at hsome
    simp at hsome
  | some pr =>
    obtain ⟨neg, k₂⟩ := pr
    obtain ⟨hneq, hlt⟩ := sampleNeg_spec mc.number_of_classes target σ fuel _ neg k₂ hsn
    refine ⟨neg, k₂, hsn ▸ rfl, hlt (by omega), hneq, ?_⟩
    intro out hout
    unfold mc_tm_update at hout
    rw [hsn] at hout
    have hout' := Option.mem_def.mp hout
    obtain rfl := Option.some.inj hout'.symm
    have hTne : target ≠ neg := fun h => hneq h.symm
    have hm1 : (mc_tm_posUpdated tmUpd mc xiOff target k).tsetlin_machines neg =
        mc.tsetlin_machines neg := by
      unfold mc_tm_posUpdated
      exact setMachine_ne _ _ _ _ hneq
    refine ⟨?_, ?_, ?_⟩
    · rw [setMachine_ne _ _ _ _ hTne]
      unfold mc_tm_posUpdated
      rw [setMachine_at]
      rfl
    · rw [setMachine_at, hm1]
      rfl
    · intro j hjt hjn
      rw [setMachine_ne _ _ _ _ hjn]
      unfold mc_tm_posUpdated
      rw [setMachine_ne _ _ _ _ hjt]

/-- Witness for C2 on the concrete two-class ensemble: target class 0,
the sampler draws class 1. -/
theorem C2_witness :
    ∃ neg k₂,
      sampleNeg exMC.number_of_classes 0 exSigma 3
          (exUpd (exMC.tsetlin_machines 0) 0 true 0).2 = some (neg, k₂) ∧
      neg < exMC.number_of_classes ∧ neg ≠ 0 ∧
      ∀ out ∈ mc_tm_update exUpd exMC 0 0 exSigma 0 3,
        (out.1.tsetlin_machines 0).core = (exUpd (exMC.tsetlin_machines 0) 0 true 0).1 ∧
        (out.1.tsetlin_machines neg).core = (exUpd (exMC.tsetlin_machines neg) 0 false k₂).1 ∧
        ∀ j, j ≠ 0 → j ≠ neg → out.1.tsetlin_machines j = exMC.tsetlin_machines j :=
  C2_update_pairwise exUpd exMC 0 0 exSigma 0 3 (by decide) (by decide) rfl

/-! ### C4 -/

theorem headSwap_perm : ∀ (t : List ℕ) (m : ℕ) (a : ℕ) (h : m < t.length),
    (t[m] :: t.set m a).Perm (a :: t) := by
  intro t
  induction t with
  | nil =>
    intro m a h
    simp at h
  | cons b t ih =>
    intro m a h
    cases m with
    | zero =>
      simp only [List.getElem_cons_zero, List.set_cons_zero]
      exact List.Perm.swap a b t
    | succ m =>
      have h' : m < t.length := by simpa using h
      simp only [List.getElem_cons_succ, List.set_cons_succ]
      exact ((List.Perm.swap b (t.get ⟨m, h'⟩) (t.set m a)).trans
        (List.Perm.cons b (ih m a h'))).trans (List.Perm.swap a b t)

theorem setSwap_perm : ∀ (l : List ℕ) (i j : ℕ) (hi : i < l.length) (hj : j < l.length),
    ((l.set j l[i]).set i l[j]).Perm l := by
  intro l
  induction l with
  | nil =>
    intro i j hi hj
    simp at hi
  | cons b t ih =>
    intro i j hi hj
    cases i with
    | zero =>
      cases j with
      | zero =>
        simp only [List.getElem_cons_zero, List.set_cons_zero]
        exact List.Perm.refl _
      | succ m =>
        have h' : m < t.length := by simpa using hj
        simp only [List.getElem_cons_zero, List.getElem_cons_succ, List.set_cons_succ,
          List.set_cons_zero]
        exact headSwap_perm t m b h'
    | succ kk =>
      cases j with
      | zero =>
        have h' : kk < t.length := by simpa using hi
        simp only [List.getElem_cons_zero, List.getElem_cons_succ, List.set_cons_succ,
          List.set_cons_zero]
        exact headSwap_perm t kk b h'
      | succ m =>
        have hi' : kk < t.length := by simpa using hi
        have hj' : m < t.length := by simpa using hj
        simp only [List.getElem_cons_succ, List.set_cons_succ]
        exact List.Perm.cons b (ih kk m hi' hj')

theorem rejection_div_lt (r M q : ℕ) (hr : r ≤ M) (hq : 1 ≤ q) :
    r / (M / q + 1) < q := by
  have hd : 0 < M / q + 1 := Nat.succ_pos _
  rw [Nat.div_lt_iff_lt_mul hd]
  have hmod := Nat.div_add_mod M q
  have hlt : M % q < q := Nat.mod_lt _ (by omega)
  rw [Nat.mul_succ]
  omega

theorem shuffleJ_lt (σ : ℕ → ℕ) (n k i : ℕ) (h : i + 1 < n) : shuffleJ σ n k i < n := by
  unfold shuffleJ
  have hrv := randVal_lt σ k
  have hr : randVal σ k ≤ RAND_MAX := by
    unfold RAND_MAX
    omega
  have hq : 1 ≤ n - i := by omega
  have := rejection_div_lt (randVal σ k) RAND_MAX (n - i) hr hq
  omega

theorem shuffleAux_perm (σ : ℕ → ℕ) (n : ℕ) :
    ∀ fuel i k a, a.length = n → i + fuel + 1 ≤ n →
      ((shuffleAux σ n fuel i k a).1).Perm a := by
  intro fuel
  induction fuel with
  | zero =>
    intro i k a hlen hbound
    exact List.Perm.refl a
  | succ fuel ih =>
    intro i k a hlen hbound
    simp only [shuffleAux]
    have hj : shuffleJ σ n k i < n := shuffleJ_lt σ n k i (by omega)
    have hia : i < a.length := by omega
    have hja : shuffleJ σ n k i < a.length := by omega
    have hswap : ((a.set (shuffleJ σ n k i) (a.getD i 0)).set i
        (a.getD (shuffleJ σ n k i) 0)).Perm a := by
      rw [List.getD_eq_getElem a 0 hia, List.getD_eq_getElem a 0 hja]
      exact setSwap_perm a i (shuffleJ σ n k i) hia hja
    have hlen' : ((a.set (shuffleJ σ n k i) (a.getD i 0)).set i
        (a.getD (shuffleJ σ n k i) 0)).length = n := by
      simp [hlen]
    exact (ih (i + 1) (k + 1) _ hlen' (by omega)).trans hswap

theorem count_range_eq_one (n v : ℕ) (hv : v < n) : (List.range n).count v = 1 :=
  List.count_eq_one_of_mem (List.nodup_range n) (List.mem_range.mpr hv)

/-- C4: for every example count `n ≥ 1` (an `int`, so `n < 2^64` after the
`size_t` conversion) and every random stream, `shuffle` applied to the
index array `0, 1, ..., n-1` produces a permutation of `[0, n)`: every
index in `[0, n)` appears exactly once in the shuffled array. -/
theorem C4_shuffle_permutation (σ : ℕ → ℕ) (k n : ℕ)
    (h1 : 1 ≤ n) (h2 : n < 2 ^ 64) :
    ((shuffle σ k (List.range n) n).1).Perm (List.range n) ∧
    ∀ v < n, (shuffle σ k (List.range n) n).1.count v = 1 := by
  have htrip : shuffleTrip n = n - 1 := by
    unfold shuffleTrip
    have he : n + 2 ^ 64 - 1 = (n - 1) + 2 ^ 64 := by omega
    rw [he, Nat.add_mod_right, Nat.mod_eq_of_lt (by omega)]
  have hperm : ((shuffle σ k (List.range n) n).1).Perm (List.range n) := by
    unfold shuffle
    rw [htrip]
    exact shuffleAux_perm σ n (n - 1) 0 k (List.range n) (by simp) (by omega)
  refine ⟨hperm, ?_⟩
  intro v hv
  rw [hperm.count_eq v]
  exact count_range_eq_one n v hv

/-- Witness for C4 with five examples on the concrete stream. -/
theorem C4_witness :
    ((shuffle exSigma 0 (List.range 5) 5).1).Perm (List.range 5) ∧
    ∀ v < 5, (shuffle exSigma 0 (List.range 5) 5).1.count v = 1 :=
  C4_shuffle_permutation exSigma 0 5 (by decide) (by norm_num)

/-! ### C1: mask-clearing lemmas -/

theorem getD_set_ne (a : List ℕ) (j p v : ℕ) (h : j ≠ p) :
    (a.set j v).getD p 0 = a.getD p 0 := by
  rw [List.getD_eq_getD_get?, List.getD_eq_getD_get?, List.get?_set_ne v a h]

theorem getD_set_self (a : List ℕ) (j v : ℕ) (h : j < a.length) :
    (a.set j v).getD j 0 = v := by
  rw [List.getD_eq_getD_get?, List.get?_set_eq_of_lt v h]
  rfl

theorem clearWordsAux_length : ∀ c j (a : List ℕ), (clearWordsAux c j a).length = a.length := by
  intro c
  induction c with
  | zero => intro j a; rfl
  | succ c ih =>
    intro j a
    simp only [clearWordsAux]
    rw [ih (j + 1) (a.set j 0)]
    exact List.length_set a ..

theorem clearWords_length (a : List ℕ) (count : ℕ) :
    (clearWords a count).length = a.length :=
  clearWordsAux_length count 0 a

theorem clearWordsAux_getD_lt : ∀ c j (a : List ℕ) p, p < j →
    (clearWordsAux c j a).getD p 0 = a.getD p 0 := by
  intro c
  induction c with
  | zero => intro j a p h; rfl
  | succ c ih =>
    intro j a p h
    simp only [clearWordsAux]
    rw [ih (j + 1) (a.set j 0) p (by omega), getD_set_ne a j p 0 (by omega)]

theorem clearWordsAux_getD_zero : ∀ c j (a : List ℕ) p, p < a.length → j ≤ p → p < j + c →
    (clearWordsAux c j a).getD p 0 = 0 := by
  intro c
  induction c with
  | zero => intro j a p h1 h2 h3; omega
  | succ c ih =>
    intro j a p h1 h2 h3
    simp only [clearWordsAux]
    by_cases hpj : p = j
    · subst hpj
      rw [clearWordsAux_getD_lt c (p + 1) (a.set p 0) p (by omega)]
      exact getD_set_self a p 0 h1
    · exact ih (j + 1) (a.set j 0) p (by simpa using h1) (by omega) (by omega)

theorem clearWords_all_zero (a : List ℕ) (count : ℕ) (hlen : a.length = count) :
    ∀ p, (clearWords a count).getD p 0 = 0 := by
  intro p
  by_cases hp : p < count
  · exact clearWordsAux_getD_zero count 0 a p (by omega) (by omega) (by omega)
  · apply List.getD_eq_default
    rw [clearWords_length a count]
    omega

theorem setBit32_length (a : List ℕ) (idx : ℕ) : (setBit32 a idx).length = a.length := by
  simp [setBit32]

theorem dropBitsLoop_length (p : ℕ → Bool) (σ : ℕ → ℕ) :
    ∀ c j k (a : List ℕ), ((dropBitsLoop p σ c j k a).1).length = a.length := by
  intro c
  induction c with
  | zero => intro j k a; rfl
  | succ c ih =>
    intro j k a
    simp only [dropBitsLoop]
    rw [ih (j + 1) (k + 1) _]
    by_cases hp : p (randVal σ k) = true
    · rw [if_pos hp]
      exact setBit32_length a j
    · rw [if_neg hp]

theorem clearMasks_zero {κ : Type} (tm : TM κ)
    (h1 : tm.drop_clause.length = tm.number_of_clause_chunks)
    (h2 : tm.drop_literal.length = tm.number_of_ta_chunks) :
    MasksZero (clearMasks tm) := by
  constructor
  · intro p
    exact clearWords_all_zero tm.drop_clause tm.number_of_clause_chunks h1 p
  · intro p
    exact clearWords_all_zero tm.drop_literal tm.number_of_ta_chunks h2 p

theorem sameShape_refl {κ : Type} (tm : TM κ) : sameShape tm tm :=
  ⟨rfl, rfl, rfl, rfl, rfl, rfl⟩

theorem sameShape_trans {κ : Type} (t1 t2 t3 : TM κ)
    (h1 : sameShape t1 t2) (h2 : sameShape t2 t3) : sameShape t1 t3 := by
  unfold sameShape at h1 h2 ⊢
  exact ⟨h2.1.trans h1.1, h2.2.1.trans h1.2.1, h2.2.2.1.trans h1.2.2.1,
    h2.2.2.2.1.trans h1.2.2.2.1, h2.2.2.2.2.1.trans h1.2.2.2.2.1,
    h2.2.2.2.2.2.trans h1.2.2.2.2.2⟩

theorem withCore_shape {κ : Type} (tm : TM κ) (c : κ) : sameShape tm (withCore tm c) :=
  ⟨rfl, rfl, rfl, rfl, rfl, rfl⟩

theorem posUpdated_shape {κ : Type} (tmUpd : TM κ → ℕ → Bool → ℕ → κ × ℕ)
    (mc : MCTM κ) (xiOff target k : ℕ) :
    ∀ j, sameShape (mc.tsetlin_machines j)
      ((mc_tm_posUpdated tmUpd mc xiOff target k).tsetlin_machines j) := by
  intro j
  by_cases hj : j = target
  · subst hj
    unfold mc_tm_posUpdated
    rw [setMachine_at]
    exact withCore_shape _ _
  · unfold mc_tm_posUpdated
    rw [setMachine_ne _ _ _ _ hj]
    exact sameShape_refl _

theorem mc_tm_update_shape {κ : Type} (tmUpd : TM κ → ℕ → Bool → ℕ → κ × ℕ)
    (mc : MCTM κ) (xiOff target : ℕ) (σ : ℕ → ℕ) (k fuel : ℕ) :
    ∀ out ∈ mc_tm_update tmUpd mc xiOff target σ k fuel,
      out.1.number_of_classes = mc.number_of_classes ∧
      out.1.number_of_patches = mc.number_of_patches ∧
      out.1.number_of_ta_chunks = mc.number_of_ta_chunks ∧
      ∀ j, sameShape (mc.tsetlin_machines j) (out.1.tsetlin_machines j) := by
  intro out hout
  unfold mc_tm_update at hout
  cases hsn : sampleNeg mc.number_of_classes target σ fuel
      (tmUpd (mc.tsetlin_machines target) xiOff true k).2 with
  | none =>
    rw [hsn] at hout
    simp at hout
  | some pr =>
    obtain ⟨neg, k₂⟩ := pr
    rw [hsn] at hout
    obtain rfl := Option.some.inj (Option.mem_def.mp hout).symm
    refine ⟨rfl, rfl, rfl, ?_⟩
    intro j
    by_cases hj : j = neg
    · subst hj
      rw [setMachine_at]
      exact sameShape_trans _ _ _ (posUpdated_shape tmUpd mc xiOff target k j)
        (withCore_shape _ _)
    · rw [setMachine_ne _ _ _ _ hj]
      exact posUpdated_shape tmUpd mc xiOff target k j

theorem updatesLoop_shape {κ : Type} (tmUpd : TM κ → ℕ → Bool → ℕ → κ × ℕ)
    (σ : ℕ → ℕ) (y : ℕ → ℕ) (idx : List ℕ) (sfuel : ℕ) :
    ∀ c i (mc : MCTM κ) k, ∀ out ∈ updatesLoop tmUpd σ y idx sfuel c i mc k,
      out.1.number_of_classes = mc.number_of_classes ∧
      ∀ j, sameShape (mc.tsetlin_machines j) (out.1.tsetlin_machines j) := by
  intro c
  induction c with
  | zero =>
    intro i mc k out hout
    obtain rfl := Option.some.inj (Option.mem_def.mp hout).symm
    exact ⟨rfl, fun j => sameShape_refl _⟩
  | succ c ih =>
    intro i mc k out hout
    simp only [updatesLoop] at hout
    cases hu : mc_tm_update tmUpd mc
        (idx.getD i 0 * mc.number_of_patches * mc.number_of_ta_chunks)
        (y (idx.getD i 0)) σ k sfuel with
    | none =>
      rw [hu] at hout
      simp at hout
    | some pr =>
      obtain ⟨mc', k'⟩ := pr
      rw [hu] at hout
      obtain ⟨hcls, _, _, hsh⟩ :=
        mc_tm_update_shape tmUpd mc _ _ σ k sfuel (mc', k') (Option.mem_def.mpr hu)
      obtain ⟨hcls', hsh'⟩ := ih (i + 1) mc' k' out hout
      refine ⟨hcls'.trans hcls, ?_⟩
      intro j
      exact sameShape_trans _ _ _ (hsh j) (hsh' j)

theorem MaskLenInv_of_shape {κ : Type} (mc mc' : MCTM κ)
    (h : ∀ j, sameShape (mc.tsetlin_machines j) (mc'.tsetlin_machines j))
    (hmc : MaskLenInv mc) : MaskLenInv mc' := by
  intro j
  obtain ⟨c1, c2, c3, c4, c5, c6⟩ := h j
  obtain ⟨m1, m2⟩ := hmc j
  constructor
  · rw [c5, c2, m1]
  · rw [c6, c3, m2]

theorem regenMasks_len {κ : Type} (dropC dropL : ℕ → Bool) (σ : ℕ → ℕ)
    (tm : TM κ) (k : ℕ)
    (h1 : tm.drop_clause.length = tm.number_of_clause_chunks)
    (h2 : tm.drop_literal.length = tm.number_of_ta_chunks) :
    ((regenMasks dropC dropL σ tm k).1).drop_clause.length =
      ((regenMasks dropC dropL σ tm k).1).number_of_clause_chunks ∧
    ((regenMasks dropC dropL σ tm k).1).drop_literal.length =
      ((regenMasks dropC dropL σ tm k).1).number_of_ta_chunks := by
  unfold regenMasks regenClause regenLiteral
  constructor
  · simp only
    rw [dropBitsLoop_length, clearWords_length, h1]
  · simp only
    rw [dropBitsLoop_length, clearWords_length, h2]

theorem MaskLenInv_set {κ : Type} (mc : MCTM κ) (i : ℕ) (tm : TM κ)
    (hmc : MaskLenInv mc)
    (h1 : tm.drop_clause.length = tm.number_of_clause_chunks)
    (h2 : tm.drop_literal.length = tm.number_of_ta_chunks) :
    MaskLenInv (setMachine mc i tm) := by
  intro j
  by_cases hj : j = i
  · subst hj
    rw [setMachine_at]
    exact ⟨h1, h2⟩
  · rw [setMachine_ne _ _ _ _ hj]
    exact hmc j

theorem dropMasksAll_classes {κ : Type} (dropC dropL : ℕ → Bool) (σ : ℕ → ℕ) :
    ∀ c i (mc : MCTM κ) k,
      ((dropMasksAll dropC dropL σ c i mc k).1).number_of_classes = mc.number_of_classes := by
  intro c
  induction c with
  | zero => intro i mc k; rfl
  | succ c ih =>
    intro i mc k
    simp only [dropMasksAll]
    rw [ih]
    rfl

theorem dropMasksAll_inv {κ : Type} (dropC dropL : ℕ → Bool) (σ : ℕ → ℕ) :
    ∀ c i (mc : MCTM κ) k, MaskLenInv mc →
      MaskLenInv ((dropMasksAll dropC dropL σ c i mc k).1) := by
  intro c
  induction c with
  | zero => intro i mc k h; exact h
  | succ c ih =>
    intro i mc k h
    simp only [dropMasksAll]
    apply ih
    obtain ⟨h1, h2⟩ := h i
    obtain ⟨g1, g2⟩ := regenMasks_len dropC dropL σ (mc.tsetlin_machines i) k h1 h2
    exact MaskLenInv_set mc i _ h g1 g2

theorem clearMasks_len {κ : Type} (tm : TM κ)
    (h1 : tm.drop_clause.length = tm.number_of_clause_chunks)
    (h2 : tm.drop_literal.length = tm.number_of_ta_chunks) :
    (clearMasks tm).drop_clause.length = (clearMasks tm).number_of_clause_chunks ∧
    (clearMasks tm).drop_literal.length = (clearMasks tm).number_of_ta_chunks := by
  unfold clearMasks
  constructor
  · simp only
    rw [clearWords_length, h1]
  · simp only
    rw [clearWords_length, h2]

theorem finalClearAll_classes {κ : Type} :
    ∀ c i (mc : MCTM κ), (finalClearAll c i mc).number_of_classes = mc.number_of_classes := by
  intro c
  induction c with
  | zero => intro i mc; rfl
  | succ c ih =>
    intro i mc
    simp only [finalClearAll]
    rw [ih]
    rfl

theorem finalClearAll_lt {κ : Type} :
    ∀ c i (mc : MCTM κ) t, t < i →
      (finalClearAll c i mc).tsetlin_machines t = mc.tsetlin_machines t := by
  intro c
  induction c with
  | zero => intro i mc t h; rfl
  | succ c ih =>
    intro i mc t h
    simp only [finalClearAll]
    rw [ih (i + 1) _ t (by omega), setMachine_ne _ _ _ _ (by omega)]

theorem finalClearAll_inv {κ : Type} :
    ∀ c i (mc : MCTM κ), MaskLenInv mc → MaskLenInv (finalClearAll c i mc) := by
  intro c
  induction c with
  | zero => intro i mc h; exact h
  | succ c ih =>
    intro i mc h
    simp only [finalClearAll]
    apply ih
    obtain ⟨h1, h2⟩ := h i
    obtain ⟨g1, g2⟩ := clearMasks_len (mc.tsetlin_machines i) h1 h2
    exact MaskLenInv_set mc i _ h g1 g2

theorem finalClearAll_zero {κ : Type} :
    ∀ c i (mc : MCTM κ), MaskLenInv mc → ∀ t, i ≤ t → t < i + c →
      MasksZero ((finalClearAll c i mc).tsetlin_machines t) := by
  intro c
  induction c with
  | zero => intro i mc h t h1 h2; omega
  | succ c ih =>
    intro i mc h t h1 h2
    simp only [finalClearAll]
    obtain ⟨m1, m2⟩ := h i
    obtain ⟨g1, g2⟩ := clearMasks_len (mc.tsetlin_machines i) m1 m2
    have hinv' : MaskLenInv (setMachine mc i (clearMasks (mc.tsetlin_machines i))) :=
      MaskLenInv_set mc i _ h g1 g2
    by_cases ht : t = i
    · subst ht
      rw [finalClearAll_lt c (t + 1) _ t (by omega), setMachine_at]
      exact clearMasks_zero (mc.tsetlin_machines t) m1 m2
    · exact ih (i + 1) _ hinv' t (by omega) (by omega)

theorem fitEpochs_masks {κ : Type} (tmUpd : TM κ → ℕ → Bool → ℕ → κ × ℕ)
    (dropC dropL : ℕ → Bool) (σ : ℕ → ℕ) (y : ℕ → ℕ)
    (nex : ℤ) (sfuel : ℕ) :
    ∀ e idx (mc : MCTM κ) k, MaskLenInv mc →
      ∀ out ∈ fitEpochs tmUpd dropC dropL σ y nex sfuel (e + 1) idx mc k,
        ∀ t < out.2.1.number_of_classes, MasksZero (out.2.1.tsetlin_machines t) := by
  intro e
  induction e with
  | zero =>
    intro idx mc k hinv out hout
    simp only [fitEpochs] at hout
    cases hu : updatesLoop tmUpd σ y (shuffle σ k idx (sizeT nex)).1 sfuel
        nex.toNat 0
        (dropMasksAll dropC dropL σ mc.number_of_classes 0 mc
          (shuffle σ k idx (sizeT nex)).2).1
        (dropMasksAll dropC dropL σ mc.number_of_classes 0 mc
          (shuffle σ k idx (sizeT nex)).2).2 with
    | none =>
      rw [hu] at hout
      simp at hout
    | some pr =>
      obtain ⟨mc₂, k₃⟩ := pr
      rw [hu] at hout
      obtain rfl := Option.some.inj (Option.mem_def.mp hout).symm
      intro t ht
      have hinv₁ : MaskLenInv (dropMasksAll dropC dropL σ mc.number_of_classes 0 mc
          (shuffle σ k idx (sizeT nex)).2).1 :=
        dropMasksAll_inv dropC dropL σ mc.number_of_classes 0 mc _ hinv
      obtain ⟨_, hsh⟩ := updatesLoop_shape tmUpd σ y _ sfuel nex.toNat 0 _ _ (mc₂, k₃)
        (Option.mem_def.mpr hu)
      have hinv₂ : MaskLenInv mc₂ := MaskLenInv_of_shape _ mc₂ hsh hinv₁
      have hcls : (finalClearAll mc₂.number_of_classes 0 mc₂).number_of_classes =
          mc₂.number_of_classes := finalClearAll_classes mc₂.number_of_classes 0 mc₂
      rw [hcls] at ht
      exact finalClearAll_zero mc₂.number_of_classes 0 mc₂ hinv₂ t (by omega) (by omega)
  | succ e ih =>
    intro idx mc k hinv out hout
    rw [show e + 1 + 1 = (e + 1) + 1 from rfl] at hout
    simp only [fitEpochs] at hout
    cases hu : updatesLoop tmUpd σ y (shuffle σ k idx (sizeT nex)).1 sfuel
        nex.toNat 0
        (dropMasksAll dropC dropL σ mc.number_of_classes 0 mc
          (shuffle σ k idx (sizeT nex)).2).1
        (dropMasksAll dropC dropL σ mc.number_of_classes 0 mc
          (shuffle σ k idx (sizeT nex)).2).2 with
    | none =>
      rw [hu] at hout
      simp at hout
    | some pr =>
      obtain ⟨mc₂, k₃⟩ := pr
      rw [hu] at hout
      have hinv₁ : MaskLenInv (dropMasksAll dropC dropL σ mc.number_of_classes 0 mc
          (shuffle σ k idx (sizeT nex)).2).1 :=
        dropMasksAll_inv dropC dropL σ mc.number_of_classes 0 mc _ hinv
      obtain ⟨_, hsh⟩ := updatesLoop_shape tmUpd σ y _ sfuel nex.toNat 0 _ _ (mc₂, k₃)
        (Option.mem_def.mpr hu)
      have hinv₂ : MaskLenInv mc₂ := MaskLenInv_of_shape _ mc₂ hsh hinv₁
      have hinv₃ : MaskLenInv (finalClearAll mc₂.number_of_classes 0 mc₂) :=
        finalClearAll_inv mc₂.number_of_classes 0 mc₂ hinv₂
      exact ih _ _ k₃ hinv₃ out hout

/-- C1 (amended): for valid training inputs (`number_of_examples ≥ 1`) and
every `epochs ≥ 1`, whenever `mc_tm_fit` returns, every engine's
`drop_clause` and `drop_literal` bitsets are entirely zero, with no
assumption about the masks' contents when `fit` was called (the
end-of-epoch reset of the final epoch clears them).  For `epochs = 0` the
epoch loop never runs and `fit` leaves the masks untouched, so the
original claim fails there. -/
theorem C1_fit_clears_masks {κ : Type} (tmUpd : TM κ → ℕ → Bool → ℕ → κ × ℕ)
    (dropC dropL : ℕ → Bool) (mc : MCTM κ) (y : ℕ → ℕ)
    (nex epochs : ℤ) (σ : ℕ → ℕ) (k sfuel : ℕ)
    (hex : 1 ≤ nex) (hep : 1 ≤ epochs) (hinv : MaskLenInv mc) :
    ∀ out ∈ mc_tm_fit tmUpd dropC dropL mc y nex epochs σ k sfuel,
      ∀ t < out.1.number_of_classes, MasksZero (out.1.tsetlin_machines t) := by
  intro out hout
  unfold mc_tm_fit at hout
  rw [Option.mem_map] at hout
  obtain ⟨st, hst, rfl⟩ := hout
  have hepn : epochs.toNat = (epochs.toNat - 1) + 1 := by omega
  rw [hepn] at hst
  exact fitEpochs_masks tmUpd dropC dropL σ y nex sfuel (epochs.toNat - 1)
    (List.range nex.toNat) mc k hinv st hst

/-- Witness for C1 on the concrete two-class ensemble whose masks start
nonzero: one epoch over one example completes and clears both masks. -/
theorem C1_witness :
    (mc_tm_fit exUpd (fun _ => false) (fun _ => false) exMC (fun _ => 0)
        1 1 exSigma 0 3).isSome = true ∧
    ∀ out ∈ mc_tm_fit exUpd (fun _ => false) (fun _ => false) exMC (fun _ => 0)
        1 1 exSigma 0 3,
      ∀ t < out.1.number_of_classes, MasksZero (out.1.tsetlin_machines t) :=
  ⟨rfl, C1_fit_clears_masks exUpd (fun _ => false) (fun _ => false) exMC (fun _ => 0)
    1 1 exSigma 0 3 (by decide) (by decide) (fun _ => ⟨rfl, rfl⟩)⟩

/-- C1 counterexample: with `epochs = 0` — an epoch count the claim
covers — `mc_tm_fit` returns with the `drop_clause` mask of engine 0 still
`[7]`, not zero: the code never clears masks outside the epoch loop. -/
theorem C1_counterexample :
    Option.map (fun out => (out.1.tsetlin_machines 0).drop_clause)
        (mc_tm_fit exUpd (fun _ => false) (fun _ => false) exMC (fun _ => 0)
          1 0 exSigma 0 3) = some [7] ∧
    (7 : ℕ) ≠ 0 :=
  ⟨rfl, by decide⟩

/-! ### C5 -/

/-- C5: at the failing input `number_of_examples = 0` (with `epochs ≥ 1`
so that `shuffle` is reached) the claim fails on the code: `shuffle`
receives `n = 0` as a `size_t`, its loop bound `n - 1` wraps to
`2^64 - 1` — so the loop body does execute — the index array has length 0,
the first iteration's divisor computation `RAND_MAX / (n - i)` divides by
`n - i = 0`, and (modelling that division as the C value 0 would make it)
the first swap partner `j` equals the raw `rand()` value, far out of range
of the empty array. -/
theorem C5_shuffle_underflow :
    shuffleTrip (sizeT 0) = 2 ^ 64 - 1 ∧
    0 < shuffleTrip (sizeT 0) ∧
    (List.range (Int.toNat 0)).length = 0 ∧
    sizeT 0 - 0 = 0 ∧
    shuffleJ (fun _ => 5) (sizeT 0) 0 0 = 5 := by
  refine ⟨?_, ?_, rfl, rfl, rfl⟩
  · show (0 + 2 ^ 64 - 1) % 2 ^ 64 = 2 ^ 64 - 1
    norm_num
  · show 0 < (0 + 2 ^ 64 - 1) % 2 ^ 64
    norm_num

/-! ### C8 -/

theorem restoreAll_classes (dst src : MCSaved) :
    ∀ cnt, (restoreAll dst src cnt).number_of_classes = dst.number_of_classes := by
  intro cnt
  induction cnt with
  | zero => rfl
  | succ cnt ih =>
    simp only [restoreAll, mc_tm_set_state]
    exact ih

theorem restoreAll_machines (dst src : MCSaved) :
    ∀ n j, j < n → (restoreAll dst src n).machines j = src.machines j := by
  intro n
  induction n with
  | zero => omega
  | succ n ih =>
    intro j hj
    simp only [restoreAll, mc_tm_set_state, mc_tm_get_state]
    by_cases hji : j = n
    · subst hji
      rw [Function.update_same]
    · rw [Function.update_noteq hji]
      exact ih j (by omega)

theorem predictLoop_congr (f g : ℕ → ℤ) :
    ∀ fuel i maxC maxS, (∀ t, i ≤ t → t < i + fuel → f t = g t) →
      predictLoop f maxC maxS i fuel = predictLoop g maxC maxS i fuel := by
  intro fuel
  induction fuel with
  | zero => intro i maxC maxS h; rfl
  | succ fuel ih =>
    intro i maxC maxS h
    simp only [predictLoop]
    rw [h i (by omega) (by omega)]
    by_cases hlt : maxS < g i
    · rw [if_pos hlt, if_pos hlt]
      exact ih (i + 1) i (g i) (fun t h1 h2 => h t (by omega) (by omega))
    · rw [if_neg hlt, if_neg hlt]
      exact ih (i + 1) maxC maxS (fun t h1 h2 => h t (by omega) (by omega))

theorem predictOne_congr (n : ℕ) (f g : ℕ → ℤ) (h : ∀ t < n, f t = g t) :
    mc_tm_predictOne n f = mc_tm_predictOne n g := by
  cases n with
  | zero => rfl
  | succ n =>
    unfold mc_tm_predictOne
    rw [h 0 (by omega)]
    rw [predictLoop_congr f g (n + 1 - 1) 1 0 (g 0) (fun t h1 h2 => h t (by omega))]

/-- C8 (amended): restoring, class by class, `get_state` of every class of
an ensemble into the matching slots of any ensemble with the same class
count (in particular a fresh, identically configured and initialized one)
yields an ensemble on which `predict` produces identical outputs to the
original on every input set. -/
theorem C8_restoreAll_predict (score : TMSaved → ℕ → ℤ) (A B : MCSaved)
    (hcls : B.number_of_classes = A.number_of_classes) (step E : ℕ) :
    mc_tm_predictSaved score (restoreAll B A A.number_of_classes) step E =
      mc_tm_predictSaved score A step E := by
  unfold mc_tm_predictSaved
  have hfun : (fun l => mc_tm_predictOne (restoreAll B A A.number_of_classes).number_of_classes
        fun i => score ((restoreAll B A A.number_of_classes).machines i) (l * step)) =
      fun l => mc_tm_predictOne A.number_of_classes fun i => score (A.machines i) (l * step) := by
    funext l
    rw [restoreAll_classes B A A.number_of_classes, hcls]
    exact predictOne_congr A.number_of_classes _ _ fun t ht => by
      rw [restoreAll_machines B A A.number_of_classes t ht]
  rw [hfun]

/-- Witness for C8's amended statement on the concrete ensembles. -/
theorem C8_witness :
    mc_tm_predictSaved exScore
        (restoreAll exSavedFresh exSavedA exSavedA.number_of_classes) 1 1 =
      mc_tm_predictSaved exScore exSavedA 1 1 :=
  C8_restoreAll_predict exScore exSavedA exSavedFresh rfl 1 1

/-- C8 counterexample: on the trained ensemble `exSavedA`, `get_state` of
class 0 followed by `set_state` into class 0 of the fresh ensemble leaves
the fresh engine 1 in its initialized state, and `predict` differs from
the original (class 1 versus class 0) — restoring a single class slot does
not reproduce `predict`. -/
theorem C8_counterexample :
    mc_tm_predictSaved exScore exSavedA 1 1 = [1] ∧
    mc_tm_predictSaved exScore
        (mc_tm_set_state exSavedFresh 0
          (mc_tm_get_state exSavedA 0).1 (mc_tm_get_state exSavedA 0).2) 1 1 = [0] := by
  constructor
  · rfl
  · rfl

end PyTM
